/-
Verification of the long-term memory engine of Project-Memory.

Shallow embedding of the Python modules:
  * src/memory/long_term.py    — SQLite record store (modelled as a list of rows
    kept in `created_at` ascending order; `created_at` timestamps are modelled
    by a strictly increasing counter, and AUTOINCREMENT ids by `nextId`,
    starting at 1 as SQLite does);
  * src/memory/embeddings.py   — cosine similarity and centroid refinement over
    real vectors (floats are idealised as reals);
  * src/memory/retrieval.py    — category inference and category-aware retrieval;
  * src/memory/compression.py  — the compaction pipeline `maybe_compress`.

External collaborators (the summarizer and the text encoder) are parameters:
a summarizer returns `Option String` (None on failure, as in the source), and
an encoder returns `Option (List ℝ)` where `none` models the raised exception.
SQLite write transactions can fail (disk error, locked database); this is
modelled by boolean success flags for the INSERT and DELETE transactions of
`maybe_compress`, and for the single transaction of `replace_with_compressed`.
A Python function that can terminate by an uncaught exception returns a
`PyResult` paired with the table state at the moment the exception escaped.
-/

import Mathlib

namespace ProjectMemory

/-- Python `kw in q` on lists of characters: `kw` occurs contiguously in `q`.
(`"" in q` is true, as in Python.) -/
def containsSub (kw : List Char) : List Char → Bool
  | [] => kw.isEmpty
  | c :: t => kw.isPrefixOf (c :: t) || containsSub kw t

/-- Python `kw in q` on strings (substring containment). -/
def strContains (q kw : String) : Bool := containsSub kw.toList q.toList

/-- Python `str.lower()`, as the character-wise lowercase map. -/
def strLower (s : String) : String := String.mk (s.toList.map Char.toLower)

/-- Python truthiness of an `Optional[list]`: `None` and `[]` are falsy. -/
def truthyList {α : Type} : Option (List α) → Bool
  | some (_ :: _) => true
  | _ => false

/-- Python truthiness of an `Optional[int]` id: `None` and `0` are falsy. -/
def truthyId : Option Nat → Bool
  | some (_ + 1) => true
  | _ => false

/-- A persisted row of the `memories` table (long_term.py): `id` is the
AUTOINCREMENT primary key, `blob` the nullable serialized embedding
(`embedding_blob`), `createdAt` the insertion timestamp. -/
structure Row where
  id : Nat
  content : String
  category : String
  blob : Option (List ℝ)
  createdAt : Nat

/-- The `Memory` dataclass of long_term.py. -/
structure Memory where
  id : Option Nat
  content : String
  category : String
  embedding : Option (List ℝ)
  createdAt : Nat

/-- The persisted store: rows in `created_at` ascending (= insertion) order,
plus the next AUTOINCREMENT id and the next timestamp. -/
structure Store where
  rows : List Row
  nextId : Nat
  nextTime : Nat

/-- The empty database right after `init_db`. -/
def Store.empty : Store := ⟨[], 1, 0⟩

/-- Model of `_row_to_memory` (long_term.py): a NULL blob gives an absent embedding. -/
def _row_to_memory (r : Row) : Memory :=
  ⟨some r.id, r.content, r.category, r.blob, r.createdAt⟩

/-- The blob written by an insert: `json.dumps(embedding).encode() if embedding
else None` — a falsy embedding (`None` or `[]`) is stored as NULL. -/
def blobOfEmbedding (embedding : Option (List ℝ)) : Option (List ℝ) :=
  if truthyList embedding then embedding else none

/-- Model of `add_memory` (long_term.py): insert a row and return the `Memory`
(carrying the caller's original `embedding` value) together with the new
table state. -/
def add_memory (content category : String) (embedding : Option (List ℝ))
    (st : Store) : Memory × Store :=
  let row : Row := ⟨st.nextId, content, category, blobOfEmbedding embedding, st.nextTime⟩
  (⟨some st.nextId, content, category, embedding, st.nextTime⟩,
   ⟨st.rows ++ [row], st.nextId + 1, st.nextTime + 1⟩)

/-- Model of `get_memories_by_category` (long_term.py): all rows of one category,
`created_at` ascending. -/
def get_memories_by_category (category : String) (st : Store) : List Memory :=
  (st.rows.filter (fun r => r.category = category)).map _row_to_memory

/-- Model of `get_all_memories` (long_term.py): all rows, `created_at` ascending. -/
def get_all_memories (st : Store) : List Memory :=
  st.rows.map _row_to_memory

/-- Model of `get_memory_count` (long_term.py): `SELECT COUNT(*)`. -/
def get_memory_count (st : Store) : Nat := st.rows.length

/-- Model of `delete_memories` (long_term.py): delete rows whose id is in the list;
no-op on the empty list. -/
def delete_memories (ids : List Nat) (st : Store) : Store :=
  if ids.isEmpty then st
  else ⟨st.rows.filter (fun r => ¬ r.id ∈ ids), st.nextId, st.nextTime⟩

/-- Model of `get_oldest_memories` (long_term.py): the `limit` earliest rows. -/
def get_oldest_memories (limit : Nat) (st : Store) : List Memory :=
  (st.rows.take limit).map _row_to_memory

/-! ### Embedding gateway (embeddings.py) -/

/-- Model of `np.dot` over equal-length vectors (zipWith truncates, matching the
well-typed calls of the source). -/
def dotL (a b : List ℝ) : ℝ := (List.zipWith (· * ·) a b).sum

/-- Model of `np.linalg.norm`: Euclidean magnitude. -/
noncomputable def normL (a : List ℝ) : ℝ := Real.sqrt (dotL a a)

open Classical in
/-- Model of `cosine_similarity` (embeddings.py): 0.0 on a zero-magnitude vector,
otherwise the normalized dot product. -/
noncomputable def cosine_similarity (a b : List ℝ) : ℝ :=
  if normL a = 0 ∨ normL b = 0 then 0
  else dotL a b / (normL a * normL b)

/-- Model of `np.mean(embs, axis=0)`: pointwise mean (callers pass same-length
vectors). -/
noncomputable def vecMean (embs : List (List ℝ)) : List ℝ :=
  match embs with
  | [] => []
  | e :: rest =>
    (rest.foldl (fun acc v => List.zipWith (· + ·) acc v) e).map
      (fun x => x / (embs.length : ℝ))

/-- Model of `jepa_inspired_refine` (embeddings.py): nudge the query embedding toward
the centroid of the memory embeddings; identity on an empty list. -/
noncomputable def jepa_inspired_refine (query_embedding : List ℝ)
    (memory_embeddings : List (List ℝ)) (alpha : ℝ) : List ℝ :=
  if memory_embeddings.isEmpty then query_embedding
  else
    List.zipWith (fun q c => q + alpha * (c - q)) query_embedding
      (vecMean memory_embeddings)

open Classical in
/-- Model of `has_similar_memory` (long_term.py): scan the category; a falsy query
embedding (`None`/`[]`) returns false immediately; stored records with a
falsy embedding are skipped. -/
noncomputable def has_similar_memory (embedding : Option (List ℝ))
    (category : String) (threshold : ℝ) (st : Store) : Bool :=
  let candidates := get_memories_by_category category st
  match embedding with
  | none => false
  | some [] => false
  | some v =>
    candidates.any (fun m =>
      match m.embedding with
      | none => false
      | some [] => false
      | some w => decide (threshold ≤ cosine_similarity v w))

/-! ### Retrieval engine (retrieval.py, config.py) -/

/-- Model of `CATEGORIES` (config.py). -/
def CATEGORIES : List String := ["personal", "food", "travel", "misc"]

/-- The `"food"` entry of `CATEGORY_KEYWORDS` (retrieval.py). -/
def foodKeywords : List String :=
  ["food", "eat", "meal", "restaurant", "cook", "recipe",
   "allergic", "like", "love", "hate", "vegan", "vegetarian", "diet"]

/-- The `"travel"` entry of `CATEGORY_KEYWORDS` (retrieval.py). -/
def travelKeywords : List String :=
  ["travel", "trip", "flight", "hotel", "visit", "going to",
   "vacation", "city", "country", "destination"]

/-- The `"personal"` entry of `CATEGORY_KEYWORDS` (retrieval.py). -/
def personalKeywords : List String :=
  ["name", "work", "job", "family", "pet", "dog", "cat",
   "home", "live", "from", "birthday", "age"]

/-- Model of `CATEGORY_KEYWORDS` (retrieval.py), in Python dict insertion order. -/
def CATEGORY_KEYWORDS : List (String × List String) :=
  [("food", foodKeywords), ("travel", travelKeywords),
   ("personal", personalKeywords)]

/-- Model of `sum(1 for kw in keywords if kw in q)`: the score of one category against
an (already lowercased) query. -/
def category_score (keywords : List String) (q : String) : Nat :=
  keywords.countP (fun kw => strContains q kw)

/-- Model of `infer_category` (retrieval.py): fold over the keyword table keeping the
first category whose score strictly exceeds the best so far (best starts
at 0, so an all-zero result leaves `none`). -/
def infer_category (query : String) : Option String :=
  let q := strLower query
  (CATEGORY_KEYWORDS.foldl
    (fun (acc : Option String × Nat) ck =>
      let score := category_score ck.2 q
      if acc.2 < score then (some ck.1, score) else acc)
    (none, 0)).1

/-- Model of `if category is None: category = infer_category(query)` (retrieval.py). -/
def resolveCategory (query : String) (category : Option String) : Option String :=
  match category with
  | none => infer_category query
  | some c => some c

/-- Candidate gathering of `retrieve` (retrieval.py lines 44-61): category
records first (only for a truthy category in `CATEGORIES`), then — when fewer
than `top_k` and the store holds more — the remaining records not already
present, deduplicated by id via a growing seen-set. -/
def gatherCandidates (query : String) (top_k : Nat) (category : Option String)
    (st : Store) : List Memory :=
  let resolved := resolveCategory query category
  let candidates :=
    match resolved with
    | some c => if c ≠ "" ∧ c ∈ CATEGORIES then get_memories_by_category c st else []
    | none => []
  if candidates.length < top_k then
    let all_memories := get_all_memories st
    if candidates.length < all_memories.length then
      (all_memories.foldl
        (fun (acc : List Memory × List (Option Nat)) m =>
          if m.id ∈ acc.2 then acc else (acc.1 ++ [m], m.id :: acc.2))
        (candidates, candidates.map (fun m => m.id))).1
    else candidates
  else candidates

open Classical in
/-- Model of `retrieve` (retrieval.py): the query encoder is a parameter returning
`none` when the external encoder raises; in that case the exception escapes
`retrieve`, modelled by the `none` result. Ranking sorts stably by descending
cosine similarity (Python sorts ascending on the negated score). -/
noncomputable def retrieve (encodeQ : String → Option (List ℝ)) (query : String)
    (top_k : Nat) (category : Option String) (use_jepa_refine : Bool)
    (st : Store) : Option (List Memory) :=
  let candidates := gatherCandidates query top_k category st
  if candidates.isEmpty then some []
  else
    let with_emb := candidates.filter (fun m => m.embedding.isSome)
    if with_emb.isEmpty then some (candidates.take top_k)
    else
      match encodeQ query with
      | none => none
      | some query_emb =>
        let query_emb :=
          if use_jepa_refine ∧ 0 < with_emb.length then
            jepa_inspired_refine query_emb
              (with_emb.map (fun m => m.embedding.getD [])) (1 / 10)
          else query_emb
        let scored := with_emb.map
          (fun m => (m, cosine_similarity query_emb (m.embedding.getD [])))
        let sorted := scored.mergeSort (fun x y => decide (y.2 ≤ x.2))
        some ((sorted.take top_k).map (fun x => x.1))

/-! ### Compaction pipeline (compression.py) -/

/-- Outcome of a Python call that may escape with an uncaught exception. -/
inductive PyResult (α : Type) where
  | ok (v : α)
  | exn
deriving DecidableEq

/-- Model of `maybe_compress` (compression.py). The external summarizer returns
`none` on failure; `encodeS` returns `none` when the encoder raises;
`insert_ok` and `delete_ok` say whether the two separate SQLite write
transactions (`add_memory`'s INSERT and `delete_memories`' DELETE) commit or
raise. The returned store is the table state when the call ended —
also when it ended by an exception. -/
def maybe_compress (summarize : List String → Option String)
    (encodeS : String → Option (List ℝ)) (insert_ok delete_ok : Bool)
    (threshold compress_count : Nat) (st : Store) : PyResult Bool × Store :=
  let count := get_memory_count st
  if count < threshold then (.ok false, st)
  else
    let oldest := get_oldest_memories compress_count st
    if oldest.isEmpty then (.ok false, st)
    else
      let texts := oldest.map (fun m => m.content)
      match summarize texts with
      | none => (.ok false, st)
      | some "" => (.ok false, st)
      | some summary =>
        let content := "[Compressed summary] " ++ summary
        match encodeS content with
        | none => (.exn, st)
        | some embedding =>
          if insert_ok then
            let st1 := (add_memory content "misc" (some embedding) st).2
            if delete_ok then
              let ids := oldest.filterMap
                (fun m => if truthyId m.id then m.id else none)
              (.ok true, delete_memories ids st1)
            else (.exn, st1)
          else (.exn, st)

/-- Model of `replace_with_compressed` (long_term.py): insert the summary and delete
the old rows in ONE transaction; on failure (`commit_ok = false`) the
transaction rolls back and the table is untouched. Unused by
`maybe_compress` in the source. -/
def replace_with_compressed (old_memories : List Memory) (new_content : String)
    (new_embedding : Option (List ℝ)) (commit_ok : Bool) (st : Store) :
    Bool × Store :=
  if old_memories.isEmpty then (false, st)
  else if commit_ok then
    let st1 : Store :=
      ⟨st.rows ++ [⟨st.nextId, new_content, "misc", blobOfEmbedding new_embedding,
        st.nextTime⟩], st.nextId + 1, st.nextTime + 1⟩
    let ids := old_memories.filterMap (fun m => m.id)
    if ids.isEmpty then (true, st1)
    else (true, ⟨st1.rows.filter (fun r => ¬ r.id ∈ ids), st1.nextId, st1.nextTime⟩)
  else (false, st)

/-- Well-formedness of a reachable table state: row ids are distinct,
positive (AUTOINCREMENT starts at 1) and below the next id. -/
def Store.WF (st : Store) : Prop :=
  (st.rows.map (fun r => r.id)).Nodup ∧
    ∀ r ∈ st.rows, 1 ≤ r.id ∧ r.id < st.nextId

/-! ### Helper lemmas -/

lemma truthyId_of_pos {n : Nat} (h : 1 ≤ n) : truthyId (some n) = true := by
  cases n with
  | zero => omega
  | succ k => rfl

lemma mem_get_memories_by_category {m : Memory} {category : String} {st : Store}
    (h : m ∈ get_memories_by_category category st) : m.category = category := by
  unfold get_memories_by_category at h
  obtain ⟨r, hr, hm⟩ := List.mem_map.mp h
  have := List.of_mem_filter hr
  simp only [decide_eq_true_eq] at this
  subst hm
  simpa [_row_to_memory] using this

/-- A concrete one-row store: one memory `"m"` in category `"misc"`,
no embedding, as produced by `init_db` plus one insert. -/
def oneRowStore : Store := ⟨[⟨1, "m", "misc", none, 0⟩], 2, 1⟩

/-! ### C1 -/

/-- C1: the commit step of `maybe_compress` is NOT a single transactional
unit: it runs `add_memory` and `delete_memories` as two separate
transactions. At the concrete failing input below (one stored record,
threshold 1, summarizer returns `"s"`, encoder succeeds, the INSERT
transaction commits, the DELETE transaction then fails) the call escapes
with an exception, the summary record IS inserted, the original IS
retained, and the total record count is `2`, one more than the count
before the attempt — a partial outcome the claim rules out. -/
theorem maybe_compress_commit_not_atomic :
    (maybe_compress (fun _ => some "s") (fun _ => some [1]) true false 1 25
        oneRowStore).1 = PyResult.exn ∧
    get_memory_count (maybe_compress (fun _ => some "s") (fun _ => some [1])
        true false 1 25 oneRowStore).2 = 2 ∧
    ((maybe_compress (fun _ => some "s") (fun _ => some [1]) true false 1 25
        oneRowStore).2.rows.map (fun r => r.content)) =
      ["m", "[Compressed summary] s"] ∧
    get_memory_count oneRowStore = 1 := by
  refine ⟨rfl, rfl, rfl, rfl⟩

/-! ### C2 -/

/-- C2, counterexample: with one stored record, threshold 1, a summarizer
returning `"s"` and an encoder that fails, `maybe_compress` ends in an
uncaught exception and commits nothing — it does not proceed to commit an
unembedded summary, and the encoder failure does reach the caller. -/
theorem maybe_compress_encoder_failure_cex :
    (maybe_compress (fun _ => some "s") (fun _ => none) true true 1 25
        oneRowStore).1 = PyResult.exn ∧
    (maybe_compress (fun _ => some "s") (fun _ => none) true true 1 25
        oneRowStore).2 = oneRowStore := by
  exact ⟨rfl, rfl⟩

/-- C2, amended: when the summarizer has returned a non-empty summary but
embedding the summary text fails, `maybe_compress` does not commit anything:
the encoder's exception propagates to the caller and the store is left
exactly as it was. -/
theorem maybe_compress_encoder_failure_propagates
    (summarize : List String → Option String) (encodeS : String → Option (List ℝ))
    (insert_ok delete_ok : Bool) (threshold compress_count : Nat) (st : Store)
    (s : String)
    (hth : threshold ≤ get_memory_count st)
    (hne : get_oldest_memories compress_count st ≠ [])
    (hsum : summarize ((get_oldest_memories compress_count st).map
      (fun m => m.content)) = some s)
    (hs : s ≠ "")
    (henc : encodeS ("[Compressed summary] " ++ s) = none) :
    maybe_compress summarize encodeS insert_ok delete_ok threshold
      compress_count st = (PyResult.exn, st) := by
  unfold maybe_compress
  have h1 : ¬ get_memory_count st < threshold := by omega
  rw [if_neg h1]
  have h2 : (get_oldest_memories compress_count st).isEmpty = false := by
    simpa [List.isEmpty_iff] using hne
  simp only [h2, Bool.false_eq_true, if_false, hsum]
  cases s with
  | mk data =>
    cases data with
    | nil => simp at hs
    | cons c cs => simp only [henc]

/-- C2 witness: the amended theorem applied at the concrete failing input. -/
theorem maybe_compress_encoder_failure_propagates_witness :
    maybe_compress (fun _ => some "s") (fun _ => none) true true 1 25
      oneRowStore = (PyResult.exn, oneRowStore) :=
  maybe_compress_encoder_failure_propagates (fun _ => some "s") (fun _ => none)
    true true 1 25 oneRowStore "s" (by decide)
    (by simp [get_oldest_memories, oneRowStore]) rfl (by decide) rfl

/-! ### C10 -/

lemma add_memory_rows (content category : String) (embedding : Option (List ℝ))
    (st : Store) :
    ((add_memory content category embedding st).2).rows =
      st.rows ++ [⟨st.nextId, content, category, blobOfEmbedding embedding,
        st.nextTime⟩] := rfl

lemma new_row_blob_none {content category : String} {st : Store}
    (hwf : st.WF) :
    ∀ r ∈ ((add_memory content category (some []) st).2).rows,
      r.id = st.nextId → r.blob = none := by
  intro r hr hid
  rw [add_memory_rows] at hr
  rcases List.mem_append.mp hr with h | h
  · exact absurd hid (by have := (hwf.2 r h).2; omega)
  · simp only [List.mem_singleton] at h
    subst h
    rfl

/-- C10: inserting with the empty vector as embedding persists no embedding
at all. The resulting table state is literally identical to the one produced
by inserting with no embedding, and each of the three reads
(`get_all_memories`, `get_memories_by_category`, `get_oldest_memories`)
returns the new record with its embedding absent. -/
theorem add_memory_empty_embedding_roundtrip (content category : String)
    (st : Store) (hwf : st.WF) :
    (add_memory content category (some []) st).2 =
      (add_memory content category none st).2 ∧
    (∀ m ∈ get_all_memories (add_memory content category (some []) st).2,
      m.id = some st.nextId → m.embedding = none) ∧
    (∀ c, ∀ m ∈ get_memories_by_category c
        (add_memory content category (some []) st).2,
      m.id = some st.nextId → m.embedding = none) ∧
    (∀ n, ∀ m ∈ get_oldest_memories n
        (add_memory content category (some []) st).2,
      m.id = some st.nextId → m.embedding = none) := by
  refine ⟨rfl, ?_, ?_, ?_⟩
  · intro m hm hid
    obtain ⟨r, hr, hm⟩ := List.mem_map.mp hm
    subst hm
    simp only [_row_to_memory, Option.some.injEq] at hid ⊢
    exact new_row_blob_none hwf r hr hid
  · intro c m hm hid
    unfold get_memories_by_category at hm
    obtain ⟨r, hr, hm⟩ := List.mem_map.mp hm
    subst hm
    simp only [_row_to_memory, Option.some.injEq] at hid ⊢
    exact new_row_blob_none hwf r (List.mem_of_mem_filter hr) hid
  · intro n m hm hid
    unfold get_oldest_memories at hm
    obtain ⟨r, hr, hm⟩ := List.mem_map.mp hm
    subst hm
    simp only [_row_to_memory, Option.some.injEq] at hid ⊢
    exact new_row_blob_none hwf r (List.take_subset n _ hr) hid

lemma oneRowStore_wf : oneRowStore.WF := by
  constructor
  · decide
  · intro r hr
    simp only [oneRowStore, List.mem_singleton] at hr
    subst hr
    exact ⟨by decide, by decide⟩

/-- C10 witness: the theorem applied to the concrete one-row store. -/
theorem add_memory_empty_embedding_roundtrip_witness :
    (add_memory "c" "food" (some []) oneRowStore).2 =
      (add_memory "c" "food" none oneRowStore).2 ∧
    (∀ m ∈ get_all_memories (add_memory "c" "food" (some []) oneRowStore).2,
      m.id = some oneRowStore.nextId → m.embedding = none) ∧
    (∀ c, ∀ m ∈ get_memories_by_category c
        (add_memory "c" "food" (some []) oneRowStore).2,
      m.id = some oneRowStore.nextId → m.embedding = none) ∧
    (∀ n, ∀ m ∈ get_oldest_memories n
        (add_memory "c" "food" (some []) oneRowStore).2,
      m.id = some oneRowStore.nextId → m.embedding = none) :=
  add_memory_empty_embedding_roundtrip "c" "food" oneRowStore oneRowStore_wf

/-! ### C3 -/

/-- C3, counterexample: on the query `"food travel"` the categories `food`
and `travel` tie with score 1, yet `infer_category` resolves to `"food"`
instead of leaving the category unresolved as the claim states. -/
theorem infer_category_tie_cex :
    category_score foodKeywords (strLower "food travel") = 1 ∧
    category_score travelKeywords (strLower "food travel") = 1 ∧
    infer_category "food travel" = some "food" := by
  refine ⟨by decide, by decide, by decide⟩

/-- C3, amended: `infer_category` scores each fixed category as the count of
its keywords occurring as substrings of the lowercased query; an all-zero
result leaves the category unresolved, and otherwise it resolves to the
FIRST category of the fixed table order (food, travel, personal) whose score
is maximal — a later category must score strictly higher to win, so ties
resolve to the earlier category rather than being left unresolved. -/
theorem infer_category_first_max_wins (query : String) :
    (infer_category query = none ↔
      category_score foodKeywords (strLower query) = 0 ∧
      category_score travelKeywords (strLower query) = 0 ∧
      category_score personalKeywords (strLower query) = 0) ∧
    (infer_category query = some "food" ↔
      0 < category_score foodKeywords (strLower query) ∧
      category_score travelKeywords (strLower query) ≤
        category_score foodKeywords (strLower query) ∧
      category_score personalKeywords (strLower query) ≤
        category_score foodKeywords (strLower query)) ∧
    (infer_category query = some "travel" ↔
      category_score foodKeywords (strLower query) <
        category_score travelKeywords (strLower query) ∧
      category_score personalKeywords (strLower query) ≤
        category_score travelKeywords (strLower query)) ∧
    (infer_category query = some "personal" ↔
      category_score foodKeywords (strLower query) <
        category_score personalKeywords (strLower query) ∧
      category_score travelKeywords (strLower query) <
        category_score personalKeywords (strLower query)) := by
  unfold infer_category
  simp only [CATEGORY_KEYWORDS, List.foldl_cons, List.foldl_nil]
  split_ifs <;> refine ⟨?_, ?_, ?_, ?_⟩ <;> simp_all <;> omega

/-! ### C5 -/

/-- C5: `has_similar_memory` returns false immediately when the query
embedding is absent (`None`, or the degenerate empty vector, both falsy in
the source), regardless of the store's contents; and for a present
(non-empty) embedding it returns true iff some record of the category
carries an embedding whose cosine similarity with it is at least the
threshold — records lacking an embedding never match. -/
theorem has_similar_memory_spec (category : String) (threshold : ℝ)
    (st : Store) :
    has_similar_memory none category threshold st = false ∧
    has_similar_memory (some []) category threshold st = false ∧
    ∀ (x : ℝ) (xs : List ℝ),
      (has_similar_memory (some (x :: xs)) category threshold st = true ↔
        ∃ m ∈ get_memories_by_category category st, ∃ w,
          m.embedding = some w ∧ w ≠ [] ∧
            threshold ≤ cosine_similarity (x :: xs) w) := by
  refine ⟨rfl, rfl, ?_⟩
  intro x xs
  simp only [has_similar_memory, List.any_eq_true]
  constructor
  · rintro ⟨m, hm, hmatch⟩
    cases hemb : m.embedding with
    | none => rw [hemb] at hmatch; simp at hmatch
    | some w =>
      cases w with
      | nil => rw [hemb] at hmatch; simp at hmatch
      | cons y ys =>
        rw [hemb] at hmatch
        simp only [decide_eq_true_eq] at hmatch
        exact ⟨m, hm, y :: ys, hemb, by simp, hmatch⟩
  · rintro ⟨m, hm, w, hemb, hw, hcos⟩
    refine ⟨m, hm, ?_⟩
    rw [hemb]
    cases w with
    | nil => exact absurd rfl hw
    | cons y ys => simpa using hcos

/-! ### C7 -/

/-- C7: every sequence `retrieve` returns has length at most `top_k`, at
`top_k = 0` it is the empty sequence, and whenever the query encoder
succeeds `retrieve` does return a sequence (it never ends in an
exception). -/
theorem retrieve_upper_bound (encodeQ : String → Option (List ℝ))
    (query : String) (k : Nat) (category : Option String) (ujr : Bool)
    (st : Store) :
    (∀ res, retrieve encodeQ query k category ujr st = some res →
      res.length ≤ k ∧ (k = 0 → res = [])) ∧
    (encodeQ query ≠ none →
      ∃ res, retrieve encodeQ query k category ujr st = some res) := by
  constructor
  · intro res h
    simp only [retrieve] at h
    split at h
    · cases h
      exact ⟨Nat.zero_le k, fun _ => rfl⟩
    · split at h
      · cases h
        refine ⟨?_, ?_⟩
        · simp
        · intro hk; subst hk; simp
      · split at h
        · exact absurd h (by simp)
        · cases h
          refine ⟨?_, ?_⟩
          · rw [List.length_map]
            simp
          · intro hk; subst hk; simp
  · intro henc
    simp only [retrieve]
    split
    · exact ⟨[], rfl⟩
    · split
      · exact ⟨_, rfl⟩
      · cases hq : encodeQ query with
        | none => exact absurd hq henc
        | some qe => exact ⟨_, rfl⟩

/-- C7 witness: the theorem applied on the empty store at `top_k = 3`. -/
theorem retrieve_upper_bound_witness :
    (([] : List Memory).length ≤ 3 ∧
      ((3 : Nat) = 0 → ([] : List Memory) = [])) ∧
    ∃ res, retrieve (fun _ => some []) "x" 3 none true Store.empty =
      some res :=
  ⟨(retrieve_upper_bound (fun _ => none) "x" 3 none true Store.empty).1 []
      rfl,
   (retrieve_upper_bound (fun _ => some []) "x" 3 none true Store.empty).2
      (fun h => Option.noConfusion h)⟩

/-! ### C8 -/

/-- C8: if the gathered candidate set is empty, `retrieve` returns the empty
sequence; and if no gathered candidate carries an embedding, it returns the
first `top_k` candidates in their gathered (category-first, chronological)
order — for EVERY query encoder, including one that would raise, so
similarity ranking is skipped and no error can surface. -/
theorem retrieve_no_embedding_graceful (encodeQ : String → Option (List ℝ))
    (query : String) (k : Nat) (category : Option String) (ujr : Bool)
    (st : Store) :
    (gatherCandidates query k category st = [] →
      retrieve encodeQ query k category ujr st = some []) ∧
    ((∀ m ∈ gatherCandidates query k category st, m.embedding = none) →
      retrieve encodeQ query k category ujr st =
        some ((gatherCandidates query k category st).take k)) := by
  constructor
  · intro h
    simp [retrieve, h]
  · intro h
    by_cases hc : gatherCandidates query k category st = []
    · rw [hc]; simp [retrieve, hc]
    · have hisE : (gatherCandidates query k category st).isEmpty = false := by
        simpa [List.isEmpty_iff] using hc
      have hfilter : (gatherCandidates query k category st).filter
          (fun m => m.embedding.isSome) = [] := by
        rw [List.filter_eq_nil_iff]
        intro m hm
        simp [h m hm]
      simp [retrieve, hisE, hfilter]

/-- C8 witness: a store holding a single embedding-less record, with an
encoder that would raise: `retrieve` still returns that record. -/
theorem retrieve_no_embedding_graceful_witness :
    retrieve (fun _ => none) "x" 2 none true oneRowStore =
      some ((gatherCandidates "x" 2 none oneRowStore).take 2) :=
  (retrieve_no_embedding_graceful (fun _ => none) "x" 2 none true
    oneRowStore).2 (by
      intro m hm
      have hg : gatherCandidates "x" 2 none oneRowStore =
          [⟨some 1, "m", "misc", none, 0⟩] := rfl
      rw [hg] at hm
      rw [List.mem_singleton.mp hm])

/-! ### C6 -/

lemma infer_category_cases {query c : String}
    (h : infer_category query = some c) :
    c = "food" ∨ c = "travel" ∨ c = "personal" := by
  unfold infer_category at h
  simp only [CATEGORY_KEYWORDS, List.foldl_cons, List.foldl_nil] at h
  split_ifs at h <;> simp_all

lemma gather_eq_of_enough (query : String) (k : Nat) (A : String) (st : Store)
    (hA : infer_category query = some A)
    (hcount : k ≤ (get_memories_by_category A st).length) :
    gatherCandidates query k none st = get_memories_by_category A st := by
  have hval : A ≠ "" ∧ A ∈ CATEGORIES := by
    rcases infer_category_cases hA with h | h | h <;> subst h <;>
      exact ⟨by decide, by decide⟩
  simp only [gatherCandidates, resolveCategory, hA]
  rw [if_pos hval, if_neg (by omega : ¬ (get_memories_by_category A st).length < k)]

/-- C6: when the category is resolved for the query by inference to `A` and
the store holds at least `top_k` records of category `A`, every record that
`retrieve` returns belongs to category `A` (the fallback extension to the
rest of the store never fires). -/
theorem retrieve_category_preference (encodeQ : String → Option (List ℝ))
    (query : String) (k : Nat) (ujr : Bool) (st : Store) (A : String)
    (res : List Memory)
    (hA : infer_category query = some A)
    (hcount : k ≤ (get_memories_by_category A st).length)
    (h : retrieve encodeQ query k none ujr st = some res) :
    ∀ m ∈ res, m.category = A := by
  have hg := gather_eq_of_enough query k A st hA hcount
  simp only [retrieve, hg] at h
  intro m hm
  split at h
  · cases h
    exact absurd hm (by simp)
  · split at h
    · cases h
      exact mem_get_memories_by_category (List.take_subset _ _ hm)
    · split at h
      · exact absurd h (by simp)
      · cases h
        obtain ⟨p, hp, hpm⟩ := List.mem_map.mp hm
        have hp2 := List.take_subset _ _ hp
        rw [List.mem_mergeSort] at hp2
        obtain ⟨m2, hm2, hpe⟩ := List.mem_map.mp hp2
        have hmem : m ∈ (get_memories_by_category A st).filter
            (fun m => m.embedding.isSome) := by
          rw [← hpm, ← hpe]
          exact hm2
        exact mem_get_memories_by_category (List.mem_of_mem_filter hmem)

/-- A concrete store holding one record in category `"food"`. -/
def foodStore : Store := ⟨[⟨1, "a", "food", none, 0⟩], 2, 1⟩

/-- C6 witness: query `"food"` infers category `"food"`; the store has one
food record and `top_k = 1`, and the record returned is a food record. -/
theorem retrieve_category_preference_witness :
    (⟨some 1, "a", "food", none, 0⟩ : Memory).category = "food" :=
  retrieve_category_preference (fun _ => none) "food" 1 true foodStore "food"
    [⟨some 1, "a", "food", none, 0⟩] (by decide) (by decide) rfl
    ⟨some 1, "a", "food", none, 0⟩ (List.mem_singleton.mpr rfl)

/-! ### C4 -/

/-- Deleting exactly the ids of a nodup-id prefix from a table extended by
one fresh row removes that prefix and nothing else. -/
lemma filter_delete_prefix (l1 l2 : List Row) (newRow : Row)
    (hnodup : ((l1 ++ l2).map (fun r => r.id)).Nodup)
    (hnew : ¬ newRow.id ∈ l1.map (fun r => r.id)) :
    ((l1 ++ l2) ++ [newRow]).filter
      (fun r => ¬ r.id ∈ l1.map (fun r => r.id)) =
      l2 ++ [newRow] := by
  rw [List.filter_append, List.filter_append]
  have h1 : l1.filter (fun r => ¬ r.id ∈ l1.map (fun r => r.id)) = [] := by
    rw [List.filter_eq_nil_iff]
    intro r hr
    have : r.id ∈ l1.map (fun r => r.id) :=
      List.mem_map_of_mem (fun r => r.id) hr
    simp [this]
  have h2 : l2.filter (fun r => ¬ r.id ∈ l1.map (fun r => r.id)) = l2 := by
    rw [List.filter_eq_self]
    intro r hr
    have hdisj : List.Disjoint (l1.map (fun r => r.id))
        (l2.map (fun r => r.id)) := by
      rw [List.map_append] at hnodup
      exact (List.nodup_append.mp hnodup).2.2
    have hrd : r.id ∈ l2.map (fun r => r.id) :=
      List.mem_map_of_mem (fun r => r.id) hr
    have hnot : ¬ r.id ∈ l1.map (fun r => r.id) := fun hmem => hdisj hmem hrd
    simpa using hnot
  have h3 : [newRow].filter (fun r => ¬ r.id ∈ l1.map (fun r => r.id)) =
      [newRow] := by
    rw [List.filter_eq_self]
    intro r hr
    rw [List.mem_singleton] at hr
    subst hr
    simpa using hnew
  rw [h1, h2, h3]
  rfl

lemma filterMap_truthyId_eq_map {l : List Row} (h : ∀ r ∈ l, 1 ≤ r.id) :
    (l.map _row_to_memory).filterMap
      (fun m => if truthyId m.id then m.id else none) =
      l.map (fun r => r.id) := by
  induction l with
  | nil => rfl
  | cons r t ih =>
    have h1 : truthyId (some r.id) = true :=
      truthyId_of_pos (h r (List.mem_cons_self r t))
    simp only [List.map_cons, List.filterMap_cons, _row_to_memory, h1, if_pos]
    rw [ih (fun x hx => h x (List.mem_cons_of_mem r hx))]

/-- The exact table state after a fully successful `maybe_compress` run:
the `compress_count` oldest rows are gone and the summary row (category
`misc`) is appended. -/
lemma maybe_compress_success (summarize : List String → Option String)
    (encodeS : String → Option (List ℝ)) (th cc : Nat) (st : Store)
    (s : String) (e : List ℝ) (hwf : st.WF)
    (hth : th ≤ get_memory_count st)
    (hne : get_oldest_memories cc st ≠ [])
    (hsum : summarize ((get_oldest_memories cc st).map (fun m => m.content)) =
      some s)
    (hs : s ≠ "")
    (henc : encodeS ("[Compressed summary] " ++ s) = some e) :
    maybe_compress summarize encodeS true true th cc st =
      (.ok true,
       ⟨st.rows.drop cc ++ [⟨st.nextId, "[Compressed summary] " ++ s, "misc",
         blobOfEmbedding (some e), st.nextTime⟩],
        st.nextId + 1, st.nextTime + 1⟩) := by
  unfold maybe_compress
  rw [if_neg (by omega : ¬ get_memory_count st < th)]
  have h2 : (get_oldest_memories cc st).isEmpty = false := by
    simpa [List.isEmpty_iff] using hne
  simp only [h2, Bool.false_eq_true, if_false, hsum]
  obtain ⟨data⟩ := s
  cases data with
  | nil => simp at hs
  | cons c cs =>
    simp only [henc, if_pos rfl, if_true]
    have htake : ∀ r ∈ st.rows.take cc, 1 ≤ r.id :=
      fun r hr => (hwf.2 r (List.take_subset cc st.rows hr)).1
    have hids : (get_oldest_memories cc st).filterMap
        (fun m => if truthyId m.id then m.id else none) =
        (st.rows.take cc).map (fun r => r.id) := by
      unfold get_oldest_memories
      exact filterMap_truthyId_eq_map htake
    rw [hids]
    have htne : st.rows.take cc ≠ [] := by
      intro hcontra
      apply hne
      unfold get_oldest_memories
      rw [hcontra]
      rfl
    have hidsne : ((st.rows.take cc).map (fun r => r.id)).isEmpty = false := by
      have hcc : cc ≠ 0 := fun h => htne (by simp [h])
      have hrows : st.rows ≠ [] := fun h => htne (by simp [h])
      simp [List.isEmpty_iff, hcc, hrows]
    unfold delete_memories
    rw [hidsne]
    simp only [Bool.false_eq_true, if_false, add_memory_rows]
    have hnew : ¬ st.nextId ∈ (st.rows.take cc).map (fun r => r.id) := by
      intro hmem
      obtain ⟨r, hr, hid⟩ := List.mem_map.mp hmem
      have := (hwf.2 r (List.take_subset cc st.rows hr)).2
      omega
    have key := filter_delete_prefix (st.rows.take cc) (st.rows.drop cc)
      ⟨st.nextId, "[Compressed summary] " ++ String.mk (c :: cs), "misc",
        blobOfEmbedding (some e), st.nextTime⟩
      (by rw [List.take_append_drop]; exact hwf.1) hnew
    rw [List.take_append_drop] at key
    rw [key]
    rfl

/-- C4: `maybe_compress` returns false and leaves the store unchanged when
the count is below the threshold, when the selected oldest batch is empty,
or when the summarizer returns no text (`None` or the empty string); and on
a fully successful run the record count afterwards plus the batch size
equals the count before plus one (i.e. `count_after = count_before -
batchSize + 1`). -/
theorem maybe_compress_noop_and_commit_count
    (summarize : List String → Option String)
    (encodeS : String → Option (List ℝ)) (insert_ok delete_ok : Bool)
    (th cc : Nat) (st : Store) :
    (get_memory_count st < th →
      maybe_compress summarize encodeS insert_ok delete_ok th cc st =
        (.ok false, st)) ∧
    (get_oldest_memories cc st = [] →
      maybe_compress summarize encodeS insert_ok delete_ok th cc st =
        (.ok false, st)) ∧
    (summarize ((get_oldest_memories cc st).map (fun m => m.content)) = none ∨
     summarize ((get_oldest_memories cc st).map (fun m => m.content)) =
       some "" →
      maybe_compress summarize encodeS insert_ok delete_ok th cc st =
        (.ok false, st)) ∧
    (∀ s e, st.WF → th ≤ get_memory_count st →
      get_oldest_memories cc st ≠ [] →
      summarize ((get_oldest_memories cc st).map (fun m => m.content)) =
        some s →
      s ≠ "" →
      encodeS ("[Compressed summary] " ++ s) = some e →
      ∃ st2, maybe_compress summarize encodeS true true th cc st =
          (.ok true, st2) ∧
        get_memory_count st2 + (get_oldest_memories cc st).length =
          get_memory_count st + 1) := by
  refine ⟨?_, ?_, ?_, ?_⟩
  · intro h
    unfold maybe_compress
    rw [if_pos h]
  · intro h
    unfold maybe_compress
    by_cases h1 : get_memory_count st < th
    · rw [if_pos h1]
    · rw [if_neg h1]
      simp [h]
  · intro h
    unfold maybe_compress
    by_cases h1 : get_memory_count st < th
    · rw [if_pos h1]
    · rw [if_neg h1]
      by_cases h2 : (get_oldest_memories cc st).isEmpty
      · simp [h2]
      · rw [if_neg h2]
        rcases h with h | h <;> simp only [h]
  · intro s e hwf hth hne hsum hs henc
    refine ⟨_, maybe_compress_success summarize encodeS th cc st s e hwf hth
      hne hsum hs henc, ?_⟩
    have hlen : cc ≤ st.rows.length ∨ st.rows.length < cc := by omega
    simp only [get_memory_count, get_oldest_memories, List.length_append,
      List.length_map, List.length_take, List.length_drop,
      List.length_singleton]
    omega

/-- C4 witness: the success branch of the theorem at a concrete one-record
store with threshold 1. -/
theorem maybe_compress_noop_and_commit_count_witness :
    ∃ st2, maybe_compress (fun _ => some "s") (fun _ => some [1]) true true
        1 25 oneRowStore = (.ok true, st2) ∧
      get_memory_count st2 + (get_oldest_memories 25 oneRowStore).length =
        get_memory_count oneRowStore + 1 :=
  (maybe_compress_noop_and_commit_count (fun _ => some "s")
      (fun _ => some [1]) true true 1 25 oneRowStore).2.2.2 "s" [1]
    oneRowStore_wf (by decide) (by simp [get_oldest_memories, oneRowStore])
    rfl (by decide) rfl

/-- Supporting fact for the compaction analysis: the repository's own atomic
helper `replace_with_compressed` (unused by `maybe_compress`) does roll back
on a failed transaction, leaving the table untouched. -/
lemma replace_with_compressed_rollback (old_memories : List Memory)
    (new_content : String) (new_embedding : Option (List ℝ)) (st : Store) :
    replace_with_compressed old_memories new_content new_embedding false st =
      (false, st) := by
  unfold replace_with_compressed
  split
  · rfl
  · rfl

/-! ### C9 -/

lemma dotL_nil_left (b : List ℝ) : dotL [] b = 0 := rfl

lemma dotL_nil_right (a : List ℝ) : dotL a [] = 0 := by cases a <;> rfl

lemma dotL_cons (x y : ℝ) (t u : List ℝ) :
    dotL (x :: t) (y :: u) = x * y + dotL t u := by
  simp [dotL]

lemma dotL_self_nonneg (a : List ℝ) : 0 ≤ dotL a a := by
  induction a with
  | nil => simp [dotL_nil_left]
  | cons x t ih => rw [dotL_cons]; nlinarith [sq_nonneg x]

/-- Cauchy-Schwarz for the list dot product. -/
lemma dotL_sq_le (a : List ℝ) : ∀ b : List ℝ,
    (dotL a b) ^ 2 ≤ dotL a a * dotL b b := by
  induction a with
  | nil => intro b; simp [dotL_nil_left]
  | cons x t ih =>
    intro b
    cases b with
    | nil => simp [dotL_nil_right]
    | cons y u =>
      rw [dotL_cons, dotL_cons, dotL_cons]
      have h1 := ih u
      have hA := dotL_self_nonneg t
      have hB := dotL_self_nonneg u
      have hs : 0 ≤ x ^ 2 * dotL u u + dotL t t * y ^ 2 :=
        add_nonneg (mul_nonneg (sq_nonneg x) hB) (mul_nonneg hA (sq_nonneg y))
      have hcert : (2 * (x * y) * dotL t u) ^ 2 ≤
          (x ^ 2 * dotL u u + dotL t t * y ^ 2) ^ 2 := by
        nlinarith [sq_nonneg (x ^ 2 * dotL u u - dotL t t * y ^ 2),
          mul_nonneg (mul_nonneg (sq_nonneg x) (sq_nonneg y))
            (sub_nonneg.mpr h1)]
      have hkey := (abs_le_of_sq_le_sq' hcert hs).2
      nlinarith [hkey, h1]

/-- C9: `cosine_similarity` returns 0 when either vector has zero magnitude,
otherwise the normalized dot product, and its value always lies in
`[-1, 1]`. -/
theorem cosine_similarity_zero_and_range (a b : List ℝ) :
    (normL a = 0 ∨ normL b = 0 → cosine_similarity a b = 0) ∧
    (¬ (normL a = 0 ∨ normL b = 0) →
      cosine_similarity a b = dotL a b / (normL a * normL b)) ∧
    -1 ≤ cosine_similarity a b ∧ cosine_similarity a b ≤ 1 := by
  have hA := dotL_self_nonneg a
  have hB := dotL_self_nonneg b
  by_cases h : normL a = 0 ∨ normL b = 0
  · have hc0 : cosine_similarity a b = 0 := by rw [cosine_similarity, if_pos h]
    exact ⟨fun _ => hc0, fun hc => absurd h hc, by rw [hc0]; norm_num,
      by rw [hc0]; norm_num⟩
  · have ha : 0 < normL a :=
      lt_of_le_of_ne (Real.sqrt_nonneg _) (fun he => (not_or.mp h).1 he.symm)
    have hb : 0 < normL b :=
      lt_of_le_of_ne (Real.sqrt_nonneg _) (fun he => (not_or.mp h).2 he.symm)
    have hprod : 0 < normL a * normL b := mul_pos ha hb
    have hsq : (normL a * normL b) ^ 2 = dotL a a * dotL b b := by
      rw [mul_pow]
      unfold normL
      rw [Real.sq_sqrt hA, Real.sq_sqrt hB]
    have hd2 : (dotL a b) ^ 2 ≤ (normL a * normL b) ^ 2 := by
      rw [hsq]
      exact dotL_sq_le a b
    have habs := abs_le_of_sq_le_sq' hd2 (le_of_lt hprod)
    have hval : cosine_similarity a b = dotL a b / (normL a * normL b) := by
      rw [cosine_similarity, if_neg h]
    refine ⟨fun hc => absurd hc h, fun _ => hval, ?_, ?_⟩
    · rw [hval, le_div_iff₀ hprod]
      linarith [habs.1]
    · rw [hval, div_le_one hprod]
      exact habs.2

/-- C9 witness: the theorem applied at the zero vector `[0]` (zero
magnitude) and at `[1]`, `[1]`. -/
theorem cosine_similarity_zero_and_range_witness :
    cosine_similarity [0] [1] = 0 ∧
    -1 ≤ cosine_similarity [1] [1] ∧ cosine_similarity [1] [1] ≤ 1 :=
  ⟨(cosine_similarity_zero_and_range [0] [1]).1
      (Or.inl (by simp [normL, dotL])),
   (cosine_similarity_zero_and_range [1] [1]).2.2.1,
   (cosine_similarity_zero_and_range [1] [1]).2.2.2⟩

end ProjectMemory
